import Mathlib

/-!
Shallow embedding of the log-processing core of this repository
(src/log_parsing/parser.py, src/log_parsing/cleaner.py,
src/structure_data/structurer.py, src/main.py) and proofs about it.

Strings are modelled as lists of characters.  The Python regular-expression
character classes \d, \s and \w are modelled by their ASCII meaning (the
inputs of interest are ASCII); SQLite TEXT comparison (BINARY collation,
memcmp over UTF-8 bytes) is modelled as lexicographic comparison of
characters by code point, which agrees with memcmp on valid UTF-8.
-/

namespace LogRCA

abbrev Str := List Char

/-- ASCII model of Python whitespace: the class \s and the default strip set. -/
def isPyWs (c : Char) : Bool :=
  c = ' ' || c = '\t' || c = '\n' || c = '\r' || c = '\x0b' || c = '\x0c'

/-- ASCII model of the regex class \d. -/
def isPyDigit (c : Char) : Bool := c.isDigit

/-- ASCII model of the regex word class \w (letters, digits, underscore). -/
def isPyWord (c : Char) : Bool := c.isAlphanum || c = '_'

/-- Python str.strip(): remove leading and trailing whitespace. -/
def pyStrip (s : Str) : Str :=
  ((s.dropWhile isPyWs).reverse.dropWhile isPyWs).reverse

/-- Python substring containment (the `in` operator on str): t occurs
    contiguously somewhere in s. -/
def strContains (s t : Str) : Bool :=
  (List.range (s.length + 1)).any (fun i => (s.drop i).take t.length = t)

/-- Lowercase a string character by character (Python str.lower on ASCII). -/
def strLower (s : Str) : Str := s.map Char.toLower

/-!
## A small backtracking regex engine

Regex AST covering the constructs appearing in the patterns of
src/log_parsing/parser.py: character classes, literals, concatenation,
alternation, bounded greedy repetition of a character class, and the
zero-width word-boundary assertion \b.  The matcher reproduces the Python
re engine's choice order: alternatives left to right, repetition longest
first, so the first success it reports is the one Python reports.
-/

inductive RE where
  | cls (p : Char → Bool)
  | lit (t : Str)
  | cat (a b : RE)
  | alt (a b : RE)
  | repCls (p : Char → Bool) (lo : Nat) (hi : Option Nat)
  | wb

/-- Length of the maximal run of characters satisfying p starting at i. -/
def clsRun (p : Char → Bool) (s : Str) (i : Nat) : Nat :=
  ((s.drop i).takeWhile p).length

/-- Candidate repetition counts in greedy order: m, m-1, ..., lo. -/
def descCounts (lo m : Nat) : List Nat :=
  (List.range (m + 1 - lo)).map (fun k => m - k)

/-- Is the character at position i (if any) a word character? -/
def isWordAt (s : Str) (i : Nat) : Bool :=
  match s.get? i with
  | some c => isPyWord c
  | none => false

/-- The \b assertion holds at i iff exactly one of the neighbouring
    positions holds a word character (string edges count as non-word). -/
def atWb (s : Str) (i : Nat) : Bool :=
  (decide (i ≠ 0) && isWordAt s (i - 1)) != isWordAt s i

/-- Feed candidate end positions i+n to the continuation until one
    succeeds (backtracking over repetition counts). -/
def tryEnds (counts : List Nat) (i : Nat) (k : Nat → Option Nat) : Option Nat :=
  match counts with
  | [] => none
  | n :: rest =>
    match k (i + n) with
    | some r => some r
    | none => tryEnds rest i k

/-- Backtracking matcher: match re at position i of s and pass each
    candidate end position to k in the Python engine's order; the first
    success wins. -/
def matchFrom (re : RE) (s : Str) (i : Nat) (k : Nat → Option Nat) : Option Nat :=
  match re with
  | .cls p =>
    match s.get? i with
    | some c => if p c then k (i + 1) else none
    | none => none
  | .lit t => if (s.drop i).take t.length = t then k (i + t.length) else none
  | .cat a b => matchFrom a s i (fun j => matchFrom b s j k)
  | .alt a b =>
    match matchFrom a s i k with
    | some r => some r
    | none => matchFrom b s i k
  | .repCls p lo hi =>
    tryEnds (descCounts lo (min (hi.getD (clsRun p s i)) (clsRun p s i))) i k
  | .wb => if atWb s i then k i else none

/-- The substring of s from position i (inclusive) to j (exclusive). -/
def extractSub (s : Str) (i j : Nat) : Str := (s.drop i).take (j - i)

/-- re.findall scanning: leftmost, non-overlapping matches; after a match
    the scan resumes at its end (or one further for an empty match). -/
def findallAux (re : RE) (s : Str) (i : Nat) : Nat → List Str
  | 0 => []
  | fuel + 1 =>
    if i ≤ s.length then
      match matchFrom re s i some with
      | some j =>
        if i < j then extractSub s i j :: findallAux re s j fuel
        else extractSub s i j :: findallAux re s (i + 1) fuel
      | none => findallAux re s (i + 1) fuel
    else []

def findall (re : RE) (s : Str) : List Str := findallAux re s 0 (s.length + 1)

/-!
## src/log_parsing/parser.py
-/

/-- One \d{1,3} octet followed by a literal dot: the repeated group of the
    IP pattern. -/
def octetDot : RE := .cat (.repCls isPyDigit 1 (some 3)) (.lit ['.'])

/-- ip_pattern = \b(?:\d{1,3}\.){3}\d{1,3}\b  (the {3} repetition of the
    non-capturing group is expanded into three copies). -/
def ipRE : RE :=
  .cat .wb (.cat octetDot (.cat octetDot (.cat octetDot
    (.cat (.repCls isPyDigit 1 (some 3)) .wb))))

/-- extract_ip_addresses: re.findall of ip_pattern over the text. -/
def extract_ip_addresses (text : Str) : List Str := findall ipRE text

/-- error_code_pattern = \b(E\d{3,4}|ERR_\d+)\b.  findall returns group 1,
    which equals the whole match because \b consumes nothing. -/
def errRE : RE :=
  .cat .wb (.cat
    (.alt (.cat (.lit ['E']) (.repCls isPyDigit 3 (some 4)))
          (.cat (.lit ['E', 'R', 'R', '_']) (.repCls isPyDigit 1 none)))
    .wb)

/-- extract_error_codes: re.findall of error_code_pattern over the text. -/
def extract_error_codes (text : Str) : List Str := findall errRE text

/-- Take exactly n characters satisfying p from the front (a fixed-count
    class repetition such as \d{4}); returns them and the remainder. -/
def takeExact (s : Str) (n : Nat) (p : Char → Bool) : Option (Str × Str) :=
  let t := s.take n
  if t.length = n && t.all p then some (t, s.drop n) else none

/-- Consume one expected literal character. -/
def expectChar (s : Str) (c : Char) : Option Str :=
  match s with
  | x :: rest => if x = c then some rest else none
  | [] => none

/-- The optional leading group of parse_log's pattern,
    (?:(\d{4}-\d{2}-\d{2} \d{2}:\d{2}:\d{2})\s)? — every piece has a fixed
    width, so the branch is deterministic.  Returns the captured timestamp
    and the input remaining after the trailing \s character. -/
def matchTsGroup (s : Str) : Option (Str × Str) := do
  let (d1, r1) ← takeExact s 4 isPyDigit
  let r2 ← expectChar r1 '-'
  let (d2, r3) ← takeExact r2 2 isPyDigit
  let r4 ← expectChar r3 '-'
  let (d3, r5) ← takeExact r4 2 isPyDigit
  let r6 ← expectChar r5 ' '
  let (d4, r7) ← takeExact r6 2 isPyDigit
  let r8 ← expectChar r7 ':'
  let (d5, r9) ← takeExact r8 2 isPyDigit
  let r10 ← expectChar r9 ':'
  let (d6, r11) ← takeExact r10 2 isPyDigit
  match r11 with
  | c :: rest =>
    if isPyWs c then
      some (d1 ++ '-' :: d2 ++ '-' :: d3 ++ ' ' :: d4 ++ ':' :: d5 ++ ':' :: d6, rest)
    else none
  | [] => none

/-- One alternative of the severity tail: the literal level name, then the
    literal colon, then one \s character, then the greedy (.+) group (a
    maximal nonempty run of non-newline characters). -/
def tryLevel (s : Str) (lv : Str) : Option (Str × Str) :=
  if s.take lv.length = lv then
    match expectChar (s.drop lv.length) ':' with
    | some r1 =>
      match r1 with
      | c :: r2 =>
        if isPyWs c then
          let msg := r2.takeWhile (fun d => d != '\n')
          if msg.isEmpty then none else some (lv, msg)
        else none
      | [] => none
    | none => none
  else none

/-- The (ERROR|WARNING|INFO):\s(.+) tail of parse_log's pattern;
    alternatives are tried left to right. -/
def matchLevelMsg (s : Str) : Option (Str × Str) :=
  (tryLevel s "ERROR".toList) <|> (tryLevel s "WARNING".toList) <|> (tryLevel s "INFO".toList)

/-- re.match of log_pattern =
    (?:(\d{4}-\d{2}-\d{2} \d{2}:\d{2}:\d{2})\s)?(ERROR|WARNING|INFO):\s(.+);
    the optional timestamp branch is tried first, and if the tail fails
    after it the engine backtracks to the branch without it. -/
def logPatternMatch (s : Str) : Option (Option Str × Str × Str) :=
  match matchTsGroup s with
  | some (ts, rest) =>
    match matchLevelMsg rest with
    | some (lv, msg) => some (some ts, lv, msg)
    | none => (matchLevelMsg s).map (fun p => (none, p.1, p.2))
  | none => (matchLevelMsg s).map (fun p => (none, p.1, p.2))

/-- The dictionary returned by parse_log. -/
structure LogDetails where
  timestamp : Str
  level : Str
  message : Str
  ip_addresses : List Str
  error_codes : List Str
deriving DecidableEq, Repr

/-- parse_log from src/log_parsing/parser.py: match log_pattern; on success
    emit the groups (timestamp defaulting to "N/A"), otherwise fall back to
    an UNKNOWN record over the stripped input line.  Total by construction. -/
def parse_log (log_entry : Str) : LogDetails :=
  match logPatternMatch log_entry with
  | some (ts, lv, msg) =>
    { timestamp := ts.getD "N/A".toList
      level := lv
      message := pyStrip msg
      ip_addresses := extract_ip_addresses msg
      error_codes := extract_error_codes msg }
  | none =>
    { timestamp := "N/A".toList
      level := "UNKNOWN".toList
      message := pyStrip log_entry
      ip_addresses := extract_ip_addresses log_entry
      error_codes := extract_error_codes log_entry }

/-!
## src/structure_data/structurer.py
-/

/-- The regex class \S (not whitespace). -/
def nonWs (c : Char) : Bool := !(isPyWs c)

/-- One structured entry as produced by LOG_PATTERN's named groups. -/
structure StructEntry where
  timestamp : Str
  log_level : Str
  message : Str
deriving DecidableEq, Repr

/-- Backtracking between the final \s+ of LOG_PATTERN and the greedy (.+)
    group: the engine first lets \s+ keep the whole whitespace run w3 and
    cedes trailing whitespace characters one at a time until (.+) finds a
    nonempty run starting with a non-newline character.  k counts how many
    characters of w3 the \s+ keeps. -/
def searchMsg : Nat → Str → Str → Option Str
  | 0, _, _ => none
  | k + 1, w3, r6 =>
    let rest := w3.drop (k + 1) ++ r6
    match rest with
    | c :: _ =>
      if c != '\n' then some (rest.takeWhile (fun d => d != '\n'))
      else searchMsg k w3 r6
    | [] => searchMsg k w3 r6

/-- re.match of LOG_PATTERN =
    (?P<timestamp>\S+\s+\S+)\s+(?P<log_level>\S+)\s+(?P<message>.+).
    Because \S and \s are complementary classes, every \S+/\s+ run is forced
    to be maximal; the only real backtracking is at the junction between the
    final \s+ and (.+), handled by searchMsg. -/
def logPatternStructMatch (s : Str) : Option StructEntry :=
  let t1 := s.takeWhile nonWs
  if t1.isEmpty then none else
  let r1 := s.drop t1.length
  let w1 := r1.takeWhile isPyWs
  if w1.isEmpty then none else
  let r2 := r1.drop w1.length
  let t2 := r2.takeWhile nonWs
  if t2.isEmpty then none else
  let r3 := r2.drop t2.length
  let w2 := r3.takeWhile isPyWs
  if w2.isEmpty then none else
  let r4 := r3.drop w2.length
  let t3 := r4.takeWhile nonWs
  if t3.isEmpty then none else
  let r5 := r4.drop t3.length
  let w3 := r5.takeWhile isPyWs
  if w3.isEmpty then none else
  let r6 := r5.drop w3.length
  match searchMsg w3.length w3 r6 with
  | some msg => some ⟨t1 ++ w1 ++ t2, t3, msg⟩
  | none => none

/-- filter_and_structure_logs: lines matching LOG_PATTERN become entries, in
    input order; non-matching lines are logged and skipped (no fallback). -/
def filter_and_structure_logs : List Str → List StructEntry
  | [] => []
  | line :: rest =>
    match logPatternStructMatch line with
    | some e => e :: filter_and_structure_logs rest
    | none => filter_and_structure_logs rest

/-- The keep-condition of clean_logs: no excluded keyword occurs in the
    message (Python case-sensitive `in`) and the log level is not excluded. -/
def keepLog (exclude_keywords exclude_log_levels : List Str) (log : StructEntry) : Bool :=
  !(exclude_keywords.any (fun keyword => strContains log.message keyword)) &&
  !(exclude_log_levels.contains log.log_level)

/-- clean_logs from structurer.py (the None defaults already resolved to
    empty lists): a list comprehension filtering by keepLog. -/
def clean_logs (logs : List StructEntry)
    (exclude_keywords exclude_log_levels : List Str) : List StructEntry :=
  logs.filter (keepLog exclude_keywords exclude_log_levels)

/-- Loop body of read_large_log_file: append each stripped line to the
    current chunk, yield the chunk whenever its length reaches chunk_size,
    and yield any nonempty remainder at end of input. -/
def readChunksAux (chunk_size : Nat) : List Str → List Str → List (List Str)
  | [], chunk => if chunk.isEmpty then [] else [chunk]
  | line :: rest, chunk =>
    let c := chunk ++ [pyStrip line]
    if chunk_size ≤ c.length then c :: readChunksAux chunk_size rest []
    else readChunksAux chunk_size rest c

/-- read_large_log_file from structurer.py, with the file abstracted as its
    list of lines. -/
def read_large_log_file (lines : List Str) (chunk_size : Nat) : List (List Str) :=
  readChunksAux chunk_size lines []

/-!
## The SQLite logs table (src/main.py, src/log_parsing/cleaner.py)
-/

/-- A stored row of the logs table
    (id INTEGER PRIMARY KEY AUTOINCREMENT, timestamp, log_level, message). -/
structure StoredRow where
  id : Nat
  timestamp : Str
  log_level : Str
  message : Str
deriving DecidableEq, Repr

/-- The logs table: rows enumerated in rowid order, together with the
    AUTOINCREMENT sequence value (at least the largest id ever assigned,
    including ids of rows deleted since). -/
structure StoreState where
  rows : List StoredRow
  seq : Nat
deriving DecidableEq, Repr

/-- One INSERT without explicit id: AUTOINCREMENT assigns seq + 1, strictly
    above every id the table has ever assigned. -/
def insertRow (st : StoreState) (l : StructEntry) : StoreState :=
  { rows := st.rows ++ [⟨st.seq + 1, l.timestamp, l.log_level, l.message⟩]
    seq := st.seq + 1 }

/-- insert_logs from src/main.py: executemany INSERT over the batch, guarded
    by `if logs:` (an empty batch does nothing and raises no error). -/
def insert_logs (st : StoreState) (logs : List StructEntry) : StoreState :=
  if logs.isEmpty then st else logs.foldl insertRow st

/-- fetch_logs (src/main.py and src/log_parsing/cleaner.py):
    SELECT ... LIMIT ? OFFSET ? with no validation in the Python code.
    SQLite semantics: a negative OFFSET acts as zero, a negative LIMIT means
    no upper bound, and LIMIT 0 returns no rows. -/
def fetch_logs (rows : List StoredRow) (limit offset : Int) : List StoredRow :=
  let afterOffset := rows.drop offset.toNat
  if limit < 0 then afterOffset else afterOffset.take limit.toNat

/-- SQLite TEXT comparison under the default BINARY collation: memcmp of the
    UTF-8 encodings, i.e. lexicographic comparison by code point. -/
def memcmpLt : Str → Str → Bool
  | [], [] => false
  | [], _ :: _ => true
  | _ :: _, [] => false
  | a :: xs, b :: ys =>
    if a < b then true else if b < a then false else memcmpLt xs ys

/-- remove_old_logs from cleaner.py: DELETE FROM logs WHERE timestamp < ?,
    a TEXT comparison against the formatted cutoff date.  The Python method
    returns None: no removed count is produced. -/
def remove_old_logs (rows : List StoredRow) (cutoff : Str) : List StoredRow :=
  rows.filter (fun r => !(memcmpLt r.timestamp cutoff))

/-- parse_timestamp from parser.py succeeding: datetime.strptime with format
    "%Y-%m-%d %H:%M:%S" accepts the string (zero-padded layout with month
    1-12, day 1-31, hour 0-23, minute and second 0-59). -/
def isValidTimestamp (s : Str) : Bool :=
  match s with
  | [y1, y2, y3, y4, '-', m1, m2, '-', d1, d2, ' ',
     h1, h2, ':', n1, n2, ':', c1, c2] =>
    [y1, y2, y3, y4, m1, m2, d1, d2, h1, h2, n1, n2, c1, c2].all isPyDigit &&
    (let mo := (m1.toNat - 48) * 10 + (m2.toNat - 48)
     let da := (d1.toNat - 48) * 10 + (d2.toNat - 48)
     let ho := (h1.toNat - 48) * 10 + (h2.toNat - 48)
     let mi := (n1.toNat - 48) * 10 + (n2.toNat - 48)
     let se := (c1.toNat - 48) * 10 + (c2.toNat - 48)
     decide (1 ≤ mo) && decide (mo ≤ 12) && decide (1 ≤ da) && decide (da ≤ 31) &&
     decide (ho ≤ 23) && decide (mi ≤ 59) && decide (se ≤ 59))
  | _ => false

/-- INSERT OR REPLACE keyed on the INTEGER PRIMARY KEY id: rows stay in
    rowid order, a conflicting row is replaced in its position, and a fresh
    id is placed at its rowid position. -/
def upsertById (rows : List StoredRow) (r : StoredRow) : List StoredRow :=
  match rows with
  | [] => [r]
  | x :: xs =>
    if r.id < x.id then r :: x :: xs
    else if r.id = x.id then r :: xs
    else x :: upsertById xs r

/-- reinsert_logs from cleaner.py: executemany INSERT OR REPLACE with caller
    supplied ids, guarded by `if logs:`. -/
def reinsert_logs (rows : List StoredRow) (logs : List StoredRow) : List StoredRow :=
  if logs.isEmpty then rows else logs.foldl upsertById rows

/-!
## Definitions following the spec's words (for comparison with the code)
-/

inductive ErrKind where
  | invalidArgument
deriving DecidableEq, Repr

/-- Follows the spec's words (section 4.4, fetch_page): limit ≤ 0 fails fast
    with an InvalidArgument kind; otherwise up to limit records in insertion
    order starting at offset. -/
def fetch_page_spec (rows : List StoredRow) (limit offset : Int) :
    Except ErrKind (List StoredRow) :=
  if limit ≤ 0 then .error .invalidArgument
  else .ok ((rows.drop offset.toNat).take limit.toNat)

/-- Case-insensitive containment as the claim words it: the keyword occurs
    in the message when both are lowercased. -/
def containsCI (s t : Str) : Bool := strContains (strLower s) (strLower t)

/-- A group of one to three digits. -/
def digits13 (g : Str) : Bool :=
  decide (1 ≤ g.length) && decide (g.length ≤ 3) && g.all isPyDigit

/-- An IPv4-shaped string as the claim words it: four dot-separated groups
    of one to three digits, with no range validation. -/
def ipv4Shaped (s : Str) : Bool :=
  match s.splitOn '.' with
  | [g1, g2, g3, g4] => digits13 g1 && digits13 g2 && digits13 g3 && digits13 g4
  | _ => false

/-- The claim-side occurrence predicate for the IP scan: the slice of s from
    position i to position j is four dot-separated 1-3 digit groups (no
    range validation) and both ends lie at word boundaries. -/
def ipOccursAt (s : Str) (i j : Nat) : Prop :=
  j ≤ s.length ∧ atWb s i = true ∧ atWb s j = true ∧
  ∃ g1 g2 g3 g4,
    extractSub s i j = g1 ++ ['.'] ++ g2 ++ ['.'] ++ g3 ++ ['.'] ++ g4 ∧
    digits13 g1 = true ∧ digits13 g2 = true ∧ digits13 g3 = true ∧
    digits13 g4 = true

/-- The claim-side occurrence predicate for the error-code scan: the slice
    of s from i to j is E followed by 3-4 digits, or ERR_ followed by one or
    more digits (case-sensitive), and both ends lie at word boundaries. -/
def errOccursAt (s : Str) (i j : Nat) : Prop :=
  j ≤ s.length ∧ atWb s i = true ∧ atWb s j = true ∧
  ((∃ g, extractSub s i j = 'E' :: g ∧ g.all isPyDigit = true ∧
      (g.length = 3 ∨ g.length = 4)) ∨
   (∃ g, extractSub s i j = 'E' :: 'R' :: 'R' :: '_' :: g ∧
      g.all isPyDigit = true ∧ 1 ≤ g.length))

/-- Declarative matching relation for the regex AST: Matches re s i j means
    re can match the slice of s from position i to position j. -/
inductive Matches : RE → Str → Nat → Nat → Prop where
  | cls {p : Char → Bool} {s : Str} {i : Nat} {c : Char} :
      s.get? i = some c → p c = true → Matches (.cls p) s i (i + 1)
  | lit {t : Str} {s : Str} {i : Nat} :
      (s.drop i).take t.length = t → Matches (.lit t) s i (i + t.length)
  | cat {a b : RE} {s : Str} {i j k : Nat} :
      Matches a s i j → Matches b s j k → Matches (.cat a b) s i k
  | altL {a b : RE} {s : Str} {i j : Nat} :
      Matches a s i j → Matches (.alt a b) s i j
  | altR {a b : RE} {s : Str} {i j : Nat} :
      Matches b s i j → Matches (.alt a b) s i j
  | repCls {p : Char → Bool} {lo : Nat} {hi : Option Nat} {s : Str} {i n : Nat} :
      lo ≤ n → (∀ h, hi = some h → n ≤ h) → n ≤ clsRun p s i →
      Matches (.repCls p lo hi) s i (i + n)
  | wb {s : Str} {i : Nat} : atWb s i = true → Matches .wb s i i

/-- Three concrete stored rows used to instantiate pagination facts. -/
def sampleRows : List StoredRow :=
  [⟨1, [], [], []⟩, ⟨2, [], [], []⟩, ⟨3, [], [], []⟩]

/-- A one-row store whose sequence value covers its single id. -/
def sampleStore : StoreState := ⟨[⟨1, [], [], []⟩], 1⟩

/-- A one-entry batch. -/
def sampleBatch : List StructEntry := [⟨"t".toList, "INFO".toList, "m".toList⟩]

/-!
## Theorems
-/

/-- C1: parse_log is total (it is a Lean function into LogDetails), and on
    every line that does not match the timestamp/severity pattern it returns
    a record with severity UNKNOWN, the unknown-timestamp sentinel "N/A",
    and as message the input line stripped of leading and trailing
    whitespace. -/
theorem c1_parse_log_total_fallback (s : Str) (h : logPatternMatch s = none) :
    (parse_log s).level = "UNKNOWN".toList ∧
    (parse_log s).timestamp = "N/A".toList ∧
    (parse_log s).message = pyStrip s := by
  simp [parse_log, h]

theorem c1_witness :
    logPatternMatch "Invalid log entry without format.".toList = none ∧
    ((parse_log "Invalid log entry without format.".toList).level = "UNKNOWN".toList ∧
     (parse_log "Invalid log entry without format.".toList).timestamp = "N/A".toList ∧
     (parse_log "Invalid log entry without format.".toList).message =
       pyStrip "Invalid log entry without format.".toList) :=
  ⟨by decide, c1_parse_log_total_fallback _ (by decide)⟩

/-- C2 as stated is false: clean_logs compares keywords case-sensitively
    (Python `in`), so a record whose message contains an excluded keyword
    only up to case is kept, although the claim says it is dropped. -/
theorem c2_counterexample :
    containsCI "DEBUG mode enabled".toList "debug".toList = true ∧
    clean_logs [⟨[], "ERROR".toList, "DEBUG mode enabled".toList⟩]
        ["debug".toList] [] =
      [⟨[], "ERROR".toList, "DEBUG mode enabled".toList⟩] := by
  decide

/-- C2 (amended): a record of the input survives clean_logs iff its message
    contains (case-sensitively) none of the excluded keywords AND its log
    level is not one of the excluded levels; equivalently it is dropped iff
    either exclusion test matches, and matching one test suffices. -/
theorem c2_clean_logs_drop_iff (logs : List StructEntry) (ks ls : List Str)
    (e : StructEntry) :
    e ∈ clean_logs logs ks ls ↔
      e ∈ logs ∧
        ¬((∃ k ∈ ks, strContains e.message k = true) ∨ e.log_level ∈ ls) := by
  simp [clean_logs, List.mem_filter, keepLog, List.any_eq_true, not_or]

/-- C3 as stated is false: remove_old_logs compares timestamp strings with
    the SQL < on TEXT, so a record with the unparseable timestamp "" sorts
    below any cutoff string and is deleted, although the claim says every
    record with an unparseable timestamp is retained. -/
theorem c3_counterexample :
    isValidTimestamp [] = false ∧
    remove_old_logs [⟨1, [], "INFO".toList, "m".toList⟩]
        "2025-09-12 00:00:00".toList = [] := by
  decide

/-- C3 (amended): remove_old_logs deletes exactly the rows whose timestamp
    string is lexicographically below the cutoff string (which coincides
    with chronological order on well-formed timestamps), and the sentinel
    "N/A" is always retained because the cutoff starts with a digit; the
    Python method returns None, not a removed count. -/
theorem c3_remove_old_logs (rows : List StoredRow) (c0 : Char) (rest : Str)
    (_h0 : '0' ≤ c0) (h9 : c0 ≤ '9') :
    (∀ r, r ∈ remove_old_logs rows (c0 :: rest) ↔
        r ∈ rows ∧ memcmpLt r.timestamp (c0 :: rest) = false) ∧
    (∀ r ∈ rows, r.timestamp = "N/A".toList →
        r ∈ remove_old_logs rows (c0 :: rest)) := by
  constructor
  · intro r
    simp [remove_old_logs, List.mem_filter]
  · intro r hr hts
    have hlt : c0 < 'N' := lt_of_le_of_lt h9 (by decide)
    have hf : memcmpLt r.timestamp (c0 :: rest) = false := by
      rw [hts]
      show memcmpLt ('N' :: '/' :: 'A' :: []) (c0 :: rest) = false
      rw [memcmpLt]
      rw [if_neg (asymm hlt), if_pos hlt]
    simp [remove_old_logs, List.mem_filter, hr, hf]

theorem c3_witness :
    ('0' ≤ '2' ∧ '2' ≤ '9') ∧
    ((∀ r, r ∈ remove_old_logs
          [⟨1, "N/A".toList, "INFO".toList, "m".toList⟩,
           ⟨2, "2020-01-01 00:00:00".toList, "INFO".toList, "m".toList⟩]
          ('2' :: "025-09-12 00:00:00".toList) ↔
        r ∈ [⟨1, "N/A".toList, "INFO".toList, "m".toList⟩,
             ⟨2, "2020-01-01 00:00:00".toList, "INFO".toList, "m".toList⟩] ∧
          memcmpLt r.timestamp ('2' :: "025-09-12 00:00:00".toList) = false) ∧
     (∀ r ∈ [⟨1, "N/A".toList, "INFO".toList, "m".toList⟩,
             ⟨2, "2020-01-01 00:00:00".toList, "INFO".toList, "m".toList⟩],
        r.timestamp = "N/A".toList →
          r ∈ remove_old_logs
            [⟨1, "N/A".toList, "INFO".toList, "m".toList⟩,
             ⟨2, "2020-01-01 00:00:00".toList, "INFO".toList, "m".toList⟩]
            ('2' :: "025-09-12 00:00:00".toList))) :=
  ⟨⟨by decide, by decide⟩, c3_remove_old_logs _ '2' _ (by decide) (by decide)⟩

/-- C4 as stated is false: fetch_logs performs no argument validation, so a
    call with limit = 0 returns an ordinary (successful) empty result where
    the claim requires a failure with an InvalidArgument kind; the
    spec-following fetch_page_spec disagrees with the code there. -/
theorem c4_counterexample :
    fetch_page_spec [⟨1, [], [], []⟩] 0 0 = .error .invalidArgument ∧
    fetch_logs [⟨1, [], [], []⟩] 0 0 = [] :=
  ⟨rfl, by decide⟩

/-- C4 (amended): for limit > 0 and offset ≥ 0, fetch_logs returns the slice
    of at most limit records of the table starting at position offset (rows
    are kept in insertion order), an offset at or beyond the table size
    yields the empty list rather than an error, and limit ≤ 0 raises no
    error either: limit = 0 yields the empty list and a negative limit
    yields all records from offset on. -/
theorem c4_fetch_logs (rows : List StoredRow) (limit offset : Int)
    (hl : 0 < limit) :
    fetch_logs rows limit offset = (rows.drop offset.toNat).take limit.toNat ∧
    (fetch_logs rows limit offset).length ≤ limit.toNat ∧
    (rows.length ≤ offset.toNat → fetch_logs rows limit offset = []) ∧
    fetch_logs rows 0 offset = [] ∧
    fetch_logs rows (-1) offset = rows.drop offset.toNat := by
  have hnotneg : ¬(limit < 0) := by omega
  refine ⟨by simp [fetch_logs, hnotneg], ?_, ?_, by simp [fetch_logs], by simp [fetch_logs]⟩
  · simp only [fetch_logs, if_neg hnotneg]
    exact List.length_take_le _ _
  · intro hoff
    simp only [fetch_logs, if_neg hnotneg]
    rw [List.drop_eq_nil_of_le hoff, List.take_nil]

theorem c4_witness :
    (0 : Int) < 2 ∧
    (fetch_logs sampleRows 2 1 =
        (sampleRows.drop (1 : Int).toNat).take (2 : Int).toNat ∧
      (fetch_logs sampleRows 2 1).length ≤ (2 : Int).toNat ∧
      (sampleRows.length ≤ (1 : Int).toNat → fetch_logs sampleRows 2 1 = []) ∧
      fetch_logs sampleRows 0 1 = [] ∧
      fetch_logs sampleRows (-1) 1 = sampleRows.drop (1 : Int).toNat) :=
  ⟨by decide, c4_fetch_logs sampleRows 2 1 (by decide)⟩

/-- Folding insertRow over a batch appends fresh rows whose ids lie strictly
    between the old and the new sequence value, in increasing order. -/
theorem foldl_insertRow_spec (logs : List StructEntry) (st : StoreState) :
    ∃ news,
      (logs.foldl insertRow st).rows = st.rows ++ news ∧
      st.seq ≤ (logs.foldl insertRow st).seq ∧
      (∀ r ∈ news, st.seq < r.id ∧ r.id ≤ (logs.foldl insertRow st).seq) ∧
      news.Pairwise (fun a b => a.id < b.id) := by
  induction logs generalizing st with
  | nil => exact ⟨[], by simp, Nat.le_refl _, by simp, List.Pairwise.nil⟩
  | cons l ls ih =>
    obtain ⟨news1, hrows, hseq, hmem, hpw⟩ := ih (insertRow st l)
    have hseq1 : (insertRow st l).seq = st.seq + 1 := rfl
    refine ⟨⟨st.seq + 1, l.timestamp, l.log_level, l.message⟩ :: news1, ?_, ?_, ?_, ?_⟩
    · simpa [insertRow] using hrows
    · rw [List.foldl_cons]
      exact Nat.le_trans (Nat.le_succ _) hseq
    · intro r hr
      rw [List.foldl_cons]
      rcases List.mem_cons.mp hr with rfl | hr
      · exact ⟨Nat.lt_succ_self _, hseq⟩
      · exact ⟨Nat.lt_of_succ_lt (hmem r hr).1, (hmem r hr).2⟩
    · exact List.Pairwise.cons (fun r hr => (hmem r hr).1) hpw

/-- C6: every batch insert appends rows whose fresh ids strictly exceed the
    sequence value (an upper bound of every id the store has assigned), the
    already stored rows are preserved verbatim, ids stay pairwise distinct,
    and an empty batch leaves the store unchanged without an error. -/
theorem c6_insert_batch (st : StoreState) (logs : List StructEntry)
    (hwf : ∀ r ∈ st.rows, r.id ≤ st.seq)
    (hnd : st.rows.Pairwise (fun a b => a.id ≠ b.id)) :
    insert_logs st [] = st ∧
    ∃ news,
      (insert_logs st logs).rows = st.rows ++ news ∧
      (∀ r ∈ news, st.seq < r.id) ∧
      (∀ r ∈ (insert_logs st logs).rows, r.id ≤ (insert_logs st logs).seq) ∧
      (insert_logs st logs).rows.Pairwise (fun a b => a.id ≠ b.id) := by
  refine ⟨by simp [insert_logs], ?_⟩
  by_cases hl : logs.isEmpty
  · refine ⟨[], by simp [insert_logs, hl], by simp, ?_, ?_⟩
    · simpa [insert_logs, hl] using hwf
    · simpa [insert_logs, hl] using hnd
  · simp only [insert_logs, if_neg hl]
    obtain ⟨news, hrows, hseq, hmem, hpw⟩ := foldl_insertRow_spec logs st
    refine ⟨news, hrows, fun r hr => (hmem r hr).1, ?_, ?_⟩
    · intro r hr
      rw [hrows] at hr
      rcases List.mem_append.mp hr with h | h
      · exact Nat.le_trans (hwf r h) hseq
      · exact (hmem r h).2
    · rw [hrows]
      refine List.pairwise_append.mpr ⟨hnd, hpw.imp (fun hlt => Nat.ne_of_lt hlt), ?_⟩
      intro a ha b hb
      exact Nat.ne_of_lt (Nat.lt_of_le_of_lt (hwf a ha) (hmem b hb).1)

theorem c6_witness :
    (∀ r ∈ sampleStore.rows, r.id ≤ sampleStore.seq) ∧
    sampleStore.rows.Pairwise (fun a b => a.id ≠ b.id) ∧
    (insert_logs sampleStore [] = sampleStore ∧
      ∃ news,
        (insert_logs sampleStore sampleBatch).rows = sampleStore.rows ++ news ∧
        (∀ r ∈ news, sampleStore.seq < r.id) ∧
        (∀ r ∈ (insert_logs sampleStore sampleBatch).rows,
          r.id ≤ (insert_logs sampleStore sampleBatch).seq) ∧
        (insert_logs sampleStore sampleBatch).rows.Pairwise (fun a b => a.id ≠ b.id)) :=
  ⟨by decide, by decide, c6_insert_batch sampleStore sampleBatch (by decide) (by decide)⟩

/-- In a table whose ids strictly increase, an upsert leaves exactly one row
    carrying the upserted id. -/
theorem upsertById_countP (rows : List StoredRow) (r : StoredRow)
    (hs : rows.Pairwise (fun a b => a.id < b.id)) :
    (upsertById rows r).countP (fun x => x.id == r.id) = 1 := by
  induction rows with
  | nil => simp [upsertById, List.countP_cons]
  | cons x xs ih =>
    obtain ⟨hx, hxs⟩ := List.pairwise_cons.mp hs
    by_cases h1 : r.id < x.id
    · have hzero : (x :: xs).countP (fun y => y.id == r.id) = 0 := by
        refine List.countP_eq_zero.mpr ?_
        intro y hy
        rcases List.mem_cons.mp hy with rfl | hy
        · simp only [beq_iff_eq]
          omega
        · have := hx y hy
          simp only [beq_iff_eq]
          omega
      rw [upsertById, if_pos h1, List.countP_cons, hzero]
      simp
    · by_cases h2 : r.id = x.id
      · have hzero : xs.countP (fun y => y.id == r.id) = 0 := by
          refine List.countP_eq_zero.mpr ?_
          intro y hy
          have := hx y hy
          simp only [beq_iff_eq]
          omega
        rw [upsertById, if_neg h1, if_pos h2, List.countP_cons, hzero]
        simp
      · have hne : (x.id == r.id) = false := by
          simp only [beq_eq_false_iff_ne, ne_eq]
          omega
        rw [upsertById, if_neg h1, if_neg h2, List.countP_cons, ih hxs]
        simp [hne]

/-- The upserted record is present afterwards. -/
theorem upsertById_mem (rows : List StoredRow) (r : StoredRow) :
    r ∈ upsertById rows r := by
  induction rows with
  | nil => simp [upsertById]
  | cons x xs ih =>
    by_cases h1 : r.id < x.id
    · simp [upsertById, h1]
    · by_cases h2 : r.id = x.id
      · simp [upsertById, h1, h2]
      · simp only [upsertById, if_neg h1, if_neg h2]
        exact List.mem_cons_of_mem _ ih

/-- When the id is already present (ids strictly increasing), an upsert does
    not change the number of rows: it replaces instead of duplicating. -/
theorem upsertById_length (rows : List StoredRow) (r : StoredRow)
    (hs : rows.Pairwise (fun a b => a.id < b.id))
    (h : rows.any (fun x => x.id == r.id) = true) :
    (upsertById rows r).length = rows.length := by
  induction rows with
  | nil => simp at h
  | cons x xs ih =>
    obtain ⟨hx, hxs⟩ := List.pairwise_cons.mp hs
    by_cases h1 : r.id < x.id
    · exfalso
      rcases List.any_eq_true.mp h with ⟨y, hy, hyid⟩
      rcases List.mem_cons.mp hy with rfl | hy
      · simp at hyid; omega
      · have := hx y hy
        simp at hyid; omega
    · by_cases h2 : r.id = x.id
      · simp [upsertById, h1, h2]
      · have hxany : (x.id == r.id) = false := by simp; omega
        have hany : xs.any (fun y => y.id == r.id) = true := by
          rcases List.any_eq_true.mp h with ⟨y, hy, hyid⟩
          rcases List.mem_cons.mp hy with rfl | hy
          · simp at hyid; omega
          · exact List.any_eq_true.mpr ⟨y, hy, hyid⟩
        simp [upsertById, h1, h2, ih hxs hany]

/-- Upserting the same record twice equals upserting it once. -/
theorem upsertById_idem (rows : List StoredRow) (r : StoredRow) :
    upsertById (upsertById rows r) r = upsertById rows r := by
  induction rows with
  | nil => simp [upsertById]
  | cons x xs ih =>
    by_cases h1 : r.id < x.id
    · simp [upsertById, h1, lt_irrefl]
    · by_cases h2 : r.id = x.id
      · simp [upsertById, h1, h2, lt_irrefl]
      · simp [upsertById, h1, h2, ih]

/-- C7: reinsert_logs with a record whose id is already stored (table ids
    strictly increasing, the rowid order) leaves exactly one row with that
    id, that row carries the newly supplied fields, the row count does not
    grow, and reinserting the same record twice is idempotent. -/
theorem c7_reinsert_upsert (rows : List StoredRow) (r : StoredRow)
    (hs : rows.Pairwise (fun a b => a.id < b.id)) :
    (reinsert_logs rows [r]).countP (fun x => x.id == r.id) = 1 ∧
    r ∈ reinsert_logs rows [r] ∧
    (rows.any (fun x => x.id == r.id) = true →
      (reinsert_logs rows [r]).length = rows.length) ∧
    reinsert_logs (reinsert_logs rows [r]) [r] = reinsert_logs rows [r] := by
  have hre : ∀ l : List StoredRow, reinsert_logs l [r] = upsertById l r := by
    intro l
    simp [reinsert_logs]
  rw [hre, hre]
  exact ⟨upsertById_countP rows r hs, upsertById_mem rows r,
    fun h => upsertById_length rows r hs h, upsertById_idem rows r⟩

theorem c7_witness :
    sampleRows.Pairwise (fun a b => a.id < b.id) ∧
    ((reinsert_logs sampleRows [⟨2, "t".toList, "ERROR".toList, "m".toList⟩]).countP
        (fun x => x.id == (2 : Nat)) = 1 ∧
      (⟨2, "t".toList, "ERROR".toList, "m".toList⟩ : StoredRow) ∈
        reinsert_logs sampleRows [⟨2, "t".toList, "ERROR".toList, "m".toList⟩] ∧
      (sampleRows.any (fun x => x.id == (2 : Nat)) = true →
        (reinsert_logs sampleRows [⟨2, "t".toList, "ERROR".toList, "m".toList⟩]).length =
          sampleRows.length) ∧
      reinsert_logs (reinsert_logs sampleRows [⟨2, "t".toList, "ERROR".toList, "m".toList⟩])
          [⟨2, "t".toList, "ERROR".toList, "m".toList⟩] =
        reinsert_logs sampleRows [⟨2, "t".toList, "ERROR".toList, "m".toList⟩]) :=
  ⟨by decide, c7_reinsert_upsert sampleRows ⟨2, "t".toList, "ERROR".toList, "m".toList⟩ (by decide)⟩

/-- Concatenating the chunks produced from a partial accumulator yields the
    accumulator followed by the stripped remaining lines. -/
theorem readChunksAux_join (N : Nat) (rem : List Str) (chunk : List Str) :
    (readChunksAux N rem chunk).flatten = chunk ++ rem.map pyStrip := by
  induction rem generalizing chunk with
  | nil =>
    by_cases h : chunk.isEmpty
    · simp [readChunksAux, h, List.isEmpty_iff.mp h]
    · simp [readChunksAux, h]
  | cons l ls ih =>
    rw [readChunksAux]
    by_cases h : N ≤ (chunk ++ [pyStrip l]).length
    · rw [if_pos h]
      simp [ih, List.append_assoc]
    · rw [if_neg h]
      simp [ih, List.append_assoc]

/-- Every produced chunk has at most N lines (accumulator shorter than N). -/
theorem readChunksAux_le (N : Nat) (hN : 1 ≤ N) (rem : List Str) (chunk : List Str)
    (hc : chunk.length < N) :
    ∀ c ∈ readChunksAux N rem chunk, c.length ≤ N := by
  induction rem generalizing chunk with
  | nil =>
    intro c hcm
    by_cases h : chunk.isEmpty
    · simp [readChunksAux, h] at hcm
    · simp [readChunksAux, h] at hcm
      subst hcm
      exact Nat.le_of_lt hc
  | cons l ls ih =>
    intro c hcm
    by_cases h : N ≤ (chunk ++ [pyStrip l]).length
    · rw [readChunksAux, if_pos h] at hcm
      rcases List.mem_cons.mp hcm with rfl | hcm
      · simp only [List.length_append, List.length_cons, List.length_nil] at h ⊢
        omega
      · exact ih [] (by simpa using hN) c hcm
    · rw [readChunksAux, if_neg h] at hcm
      refine ih (chunk ++ [pyStrip l]) ?_ c hcm
      omega

/-- Every produced chunk except possibly the last has exactly N lines. -/
theorem readChunksAux_dropLast (N : Nat) (hN : 1 ≤ N) (rem : List Str)
    (chunk : List Str) (hc : chunk.length < N) :
    ∀ c ∈ (readChunksAux N rem chunk).dropLast, c.length = N := by
  induction rem generalizing chunk with
  | nil =>
    intro c hcm
    by_cases h : chunk.isEmpty
    · simp [readChunksAux, h] at hcm
    · simp [readChunksAux, h] at hcm
  | cons l ls ih =>
    intro c hcm
    by_cases h : N ≤ (chunk ++ [pyStrip l]).length
    · rw [readChunksAux, if_pos h] at hcm
      rcases hrest : readChunksAux N ls [] with _ | ⟨c1, cs⟩
      · rw [hrest] at hcm
        simp at hcm
      · rw [hrest, List.dropLast_cons_of_ne_nil (by simp)] at hcm
        rcases List.mem_cons.mp hcm with rfl | hcm
        · simp only [List.length_append, List.length_cons, List.length_nil] at h ⊢
          omega
        · have := ih [] (by simpa using hN)
          rw [hrest] at this
          exact this c hcm
    · rw [readChunksAux, if_neg h] at hcm
      refine ih (chunk ++ [pyStrip l]) ?_ c hcm
      omega

/-- C8 (amended): for every chunk size N ≥ 1 the reader yields chunks whose
    concatenation is exactly the input lines, each stripped of leading and
    trailing whitespace, in source order with none dropped or duplicated;
    every chunk has at most N lines, every chunk but possibly the last has
    exactly N, an empty source yields no chunks, and any 5 lines with chunk
    size 2 come out in chunks of sizes [2, 2, 1]. -/
theorem c8_read_large_log_file (lines : List Str) (N : Nat) (hN : 1 ≤ N) :
    (read_large_log_file lines N).flatten = lines.map pyStrip ∧
    (∀ c ∈ read_large_log_file lines N, c.length ≤ N) ∧
    (∀ c ∈ (read_large_log_file lines N).dropLast, c.length = N) ∧
    read_large_log_file [] N = [] ∧
    (∀ l1 l2 l3 l4 l5 : Str,
      (read_large_log_file [l1, l2, l3, l4, l5] 2).map List.length = [2, 2, 1]) := by
  refine ⟨?_, ?_, ?_, rfl, fun l1 l2 l3 l4 l5 => rfl⟩
  · simpa using readChunksAux_join N lines []
  · exact readChunksAux_le N hN lines [] (by simpa using hN)
  · exact readChunksAux_dropLast N hN lines [] (by simpa using hN)

/-- C8 as stated is false in one detail: each line is stored stripped of
    leading and trailing whitespace, so the chunks do not contain the raw
    input lines verbatim. -/
theorem c8_counterexample :
    read_large_log_file [" a ".toList] 1 ≠ [[" a ".toList]] ∧
    read_large_log_file [" a ".toList] 1 = [["a".toList]] := by
  constructor
  · decide
  · decide

theorem c8_witness :
    1 ≤ 2 ∧
    ((read_large_log_file ["l1".toList, "l2".toList, "l3".toList, "l4".toList, "l5".toList]
          2).flatten =
        ["l1".toList, "l2".toList, "l3".toList, "l4".toList, "l5".toList].map pyStrip ∧
      (∀ c ∈ read_large_log_file
          ["l1".toList, "l2".toList, "l3".toList, "l4".toList, "l5".toList] 2,
        c.length ≤ 2) ∧
      (∀ c ∈ (read_large_log_file
          ["l1".toList, "l2".toList, "l3".toList, "l4".toList, "l5".toList] 2).dropLast,
        c.length = 2) ∧
      read_large_log_file [] 2 = [] ∧
      (∀ l1 l2 l3 l4 l5 : Str,
        (read_large_log_file [l1, l2, l3, l4, l5] 2).map List.length = [2, 2, 1])) :=
  ⟨by decide,
    c8_read_large_log_file
      ["l1".toList, "l2".toList, "l3".toList, "l4".toList, "l5".toList] 2 (by decide)⟩

/-- Strengthening the exclusion criteria can only strengthen the drop
    condition: anything kept under the larger criteria is kept under the
    smaller ones. -/
theorem keepLog_mono_kw (k0 : Str) (ks ls : List Str) (e : StructEntry)
    (h : keepLog (k0 :: ks) ls e = true) : keepLog ks ls e = true := by
  simp [keepLog] at h ⊢
  tauto

theorem keepLog_mono_lv (l0 : Str) (ks ls : List Str) (e : StructEntry)
    (h : keepLog ks (l0 :: ls) e = true) : keepLog ks ls e = true := by
  simp [keepLog] at h ⊢
  tauto

/-- C9: adding one excluded keyword or one excluded severity makes the
    cleaned list a sublist of the original cleaned list, so the number of
    records kept never increases. -/
theorem c9_clean_logs_monotone (logs : List StructEntry) (ks ls : List Str)
    (k0 l0 : Str) :
    (clean_logs logs (k0 :: ks) ls).Sublist (clean_logs logs ks ls) ∧
    (clean_logs logs ks (l0 :: ls)).Sublist (clean_logs logs ks ls) ∧
    (clean_logs logs (k0 :: ks) ls).length ≤ (clean_logs logs ks ls).length ∧
    (clean_logs logs ks (l0 :: ls)).length ≤ (clean_logs logs ks ls).length := by
  have h1 : (clean_logs logs (k0 :: ks) ls).Sublist (clean_logs logs ks ls) :=
    List.monotone_filter_right logs (fun e he => keepLog_mono_kw k0 ks ls e he)
  have h2 : (clean_logs logs ks (l0 :: ls)).Sublist (clean_logs logs ks ls) :=
    List.monotone_filter_right logs (fun e he => keepLog_mono_lv l0 ks ls e he)
  exact ⟨h1, h2, h1.length_le, h2.length_le⟩

theorem c9_witness :
    (clean_logs [⟨[], "INFO".toList, "dbg on".toList⟩] ["dbg".toList] []).Sublist
        (clean_logs [⟨[], "INFO".toList, "dbg on".toList⟩] [] []) ∧
      (clean_logs [⟨[], "INFO".toList, "dbg on".toList⟩] [] ["INFO".toList]).Sublist
        (clean_logs [⟨[], "INFO".toList, "dbg on".toList⟩] [] []) ∧
      (clean_logs [⟨[], "INFO".toList, "dbg on".toList⟩] ["dbg".toList] []).length ≤
        (clean_logs [⟨[], "INFO".toList, "dbg on".toList⟩] [] []).length ∧
      (clean_logs [⟨[], "INFO".toList, "dbg on".toList⟩] [] ["INFO".toList]).length ≤
        (clean_logs [⟨[], "INFO".toList, "dbg on".toList⟩] [] []).length :=
  c9_clean_logs_monotone [⟨[], "INFO".toList, "dbg on".toList⟩] [] [] "dbg".toList
    "INFO".toList

/-- C10: the structuring path is not total — filter_and_structure_logs
    returns exactly the records of the lines matching LOG_PATTERN, in input
    order; a non-matching line contributes nothing (no fallback record),
    as the concrete non-matching line "a b c" shows. -/
theorem c10_filter_and_structure (lines : List Str) :
    filter_and_structure_logs lines = lines.filterMap logPatternStructMatch ∧
    (∀ e ∈ filter_and_structure_logs lines,
      ∃ line ∈ lines, logPatternStructMatch line = some e) ∧
    filter_and_structure_logs ["a b c".toList] = [] := by
  have h1 : ∀ L : List Str,
      filter_and_structure_logs L = L.filterMap logPatternStructMatch := by
    intro L
    induction L with
    | nil => rfl
    | cons l ls ih =>
      cases hm : logPatternStructMatch l with
      | none => simp [filter_and_structure_logs, hm, ih, List.filterMap_cons]
      | some e => simp [filter_and_structure_logs, hm, ih, List.filterMap_cons]
  refine ⟨h1 lines, ?_, by decide⟩
  intro e he
  rw [h1 lines] at he
  obtain ⟨line, hline, hsome⟩ := List.mem_filterMap.mp he
  exact ⟨line, hline, hsome⟩

theorem c10_witness : filter_and_structure_logs ["a b c".toList] = [] :=
  (c10_filter_and_structure ["a b c".toList]).2.2

/-- tryEnds succeeds only through one of its candidate counts. -/
theorem tryEnds_sound (counts : List Nat) (i : Nat) (k : Nat → Option Nat) (r : Nat)
    (h : tryEnds counts i k = some r) : ∃ n ∈ counts, k (i + n) = some r := by
  induction counts with
  | nil => simp [tryEnds] at h
  | cons n rest ih =>
    rw [tryEnds] at h
    cases hk : k (i + n) with
    | some r2 =>
      rw [hk] at h
      exact ⟨n, List.mem_cons_self n rest, by rw [hk]; exact h⟩
    | none =>
      rw [hk] at h
      obtain ⟨n2, hn2, hk2⟩ := ih h
      exact ⟨n2, List.mem_cons_of_mem _ hn2, hk2⟩

/-- Membership in the greedy candidate list bounds the count. -/
theorem mem_descCounts (lo m n : Nat) (h : n ∈ descCounts lo m) :
    lo ≤ n ∧ n ≤ m := by
  simp only [descCounts, List.mem_map, List.mem_range] at h
  obtain ⟨q, hq, rfl⟩ := h
  omega

/-- Soundness of the backtracking matcher: a success factors through a
    declarative match of the regex followed by the continuation. -/
theorem matchFrom_sound (re : RE) :
    ∀ (s : Str) (i : Nat) (k : Nat → Option Nat) (r : Nat),
      matchFrom re s i k = some r → ∃ j, Matches re s i j ∧ k j = some r := by
  induction re with
  | cls p =>
    intro s i k r h
    rw [matchFrom] at h
    cases hg : s.get? i with
    | none =>
      simp only [hg] at h
      exact Option.noConfusion h
    | some c =>
      simp only [hg] at h
      by_cases hp : p c = true
      · rw [if_pos hp] at h
        exact ⟨i + 1, .cls hg hp, h⟩
      · rw [if_neg hp] at h
        simp at h
  | lit t =>
    intro s i k r h
    rw [matchFrom] at h
    by_cases ht : (s.drop i).take t.length = t
    · rw [if_pos ht] at h
      exact ⟨i + t.length, .lit ht, h⟩
    · rw [if_neg ht] at h
      simp at h
  | cat a b iha ihb =>
    intro s i k r h
    rw [matchFrom] at h
    obtain ⟨j, ha, hb⟩ := iha s i _ r h
    obtain ⟨j2, hb2, hk⟩ := ihb s j k r hb
    exact ⟨j2, .cat ha hb2, hk⟩
  | alt a b iha ihb =>
    intro s i k r h
    rw [matchFrom] at h
    cases hma : matchFrom a s i k with
    | some r2 =>
      rw [hma] at h
      obtain ⟨j, ha, hk⟩ := iha s i k r2 hma
      cases h
      exact ⟨j, .altL ha, hk⟩
    | none =>
      rw [hma] at h
      obtain ⟨j, hb, hk⟩ := ihb s i k r h
      exact ⟨j, .altR hb, hk⟩
  | repCls p lo hi =>
    intro s i k r h
    rw [matchFrom] at h
    obtain ⟨n, hn, hk⟩ := tryEnds_sound _ _ _ _ h
    obtain ⟨h1, h2⟩ := mem_descCounts _ _ _ hn
    have hrun : n ≤ clsRun p s i := Nat.le_trans h2 (min_le_right _ _)
    refine ⟨i + n, .repCls h1 (fun h3 hh => ?_) hrun, hk⟩
    subst hh
    simp only [Option.getD_some] at h2
    exact Nat.le_trans h2 (min_le_left _ _)
  | wb =>
    intro s i k r h
    rw [matchFrom] at h
    by_cases hb : atWb s i = true
    · rw [if_pos hb] at h
      exact ⟨i, .wb hb, h⟩
    · rw [if_neg hb] at h
      simp at h

/-- Every string produced by the findall scan comes from a declarative
    match of the pattern over a slice of the input. -/
theorem findallAux_sound (re : RE) (s : Str) :
    ∀ (fuel i : Nat) (m : Str), m ∈ findallAux re s i fuel →
      ∃ i0 j, Matches re s i0 j ∧ m = extractSub s i0 j := by
  intro fuel
  induction fuel with
  | zero =>
    intro i m h
    simp [findallAux] at h
  | succ fuel ih =>
    intro i m h
    rw [findallAux] at h
    by_cases hle : i ≤ s.length
    · rw [if_pos hle] at h
      cases hm : matchFrom re s i some with
      | some j =>
        simp only [hm] at h
        obtain ⟨j2, hmat, hsome⟩ := matchFrom_sound re s i some j hm
        have hj : j2 = j := Option.some.inj hsome
        rw [← hj] at h
        by_cases hij : i < j2
        · rw [if_pos hij] at h
          rcases List.mem_cons.mp h with rfl | h
          · exact ⟨i, j2, hmat, rfl⟩
          · exact ih j2 m h
        · rw [if_neg hij] at h
          rcases List.mem_cons.mp h with rfl | h
          · exact ⟨i, j2, hmat, rfl⟩
          · exact ih (i + 1) m h
      | none =>
        simp only [hm] at h
        exact ih (i + 1) m h
    · rw [if_neg hle] at h
      simp at h

/-- A prefix of length n of the maximal p-run consists of n characters all
    satisfying p. -/
theorem take_all_of_le_takeWhile (p : Char → Bool) :
    ∀ (l : List Char) (n : Nat), n ≤ (l.takeWhile p).length →
      (l.take n).length = n ∧ (l.take n).all p = true := by
  intro l
  induction l with
  | nil =>
    intro n h
    simp only [List.takeWhile_nil, List.length_nil, Nat.le_zero] at h
    subst h
    simp
  | cons c t ih =>
    intro n h
    cases n with
    | zero => simp
    | succ n =>
      rw [List.takeWhile_cons] at h
      by_cases hp : p c = true
      · rw [if_pos hp] at h
        simp only [List.length_cons, Nat.succ_le_succ_iff] at h
        obtain ⟨hlen, hall⟩ := ih n h
        constructor
        · simp [hlen]
        · simp [hp, hall]
      · rw [if_neg hp] at h
        simp at h

/-- n characters within the digit run starting at i form an n-digit group. -/
theorem extractSub_digits (s : Str) (i n : Nat) (h : n ≤ clsRun isPyDigit s i) :
    (extractSub s i (i + n)).length = n ∧
    (extractSub s i (i + n)).all isPyDigit = true := by
  have he : extractSub s i (i + n) = (s.drop i).take n := by
    simp [extractSub]
  rw [he]
  exact take_all_of_le_takeWhile isPyDigit (s.drop i) n h

/-- Slices compose across an intermediate position. -/
theorem extractSub_append (s : Str) (i p j : Nat) (h1 : i ≤ p) (h2 : p ≤ j) :
    extractSub s i j = extractSub s i p ++ extractSub s p j := by
  simp only [extractSub]
  have hj : j - i = (p - i) + (j - p) := by omega
  rw [hj, List.take_add, List.drop_drop]
  simp [Nat.sub_add_cancel h1, Nat.add_sub_cancel' h1]

/-- A literal match determines the end position and the matched slice. -/
theorem matches_lit_decomp {t s : Str} {i j : Nat}
    (h : Matches (.lit t) s i j) :
    j = i + t.length ∧ extractSub s i j = t := by
  cases h with
  | lit hp =>
    refine ⟨rfl, ?_⟩
    simpa [extractSub] using hp

/-- A declarative match never moves backwards. -/
theorem matches_le {re : RE} {s : Str} {i j : Nat} (h : Matches re s i j) :
    i ≤ j := by
  induction h with
  | cls _ _ => omega
  | lit _ => exact Nat.le_add_right _ _
  | cat _ _ ih1 ih2 => exact Nat.le_trans ih1 ih2
  | altL _ ih => exact ih
  | altR _ ih => exact ih
  | repCls _ _ _ => exact Nat.le_add_right _ _
  | wb _ => exact Nat.le_refl _

/-- A match of the repeated octet group is a 1-3 digit group followed by a
    literal dot. -/
theorem octetDot_decomp {s : Str} {i j : Nat} (h : Matches octetDot s i j) :
    ∃ g, extractSub s i j = g ++ ['.'] ∧ digits13 g = true ∧ i ≤ j := by
  cases h with
  | @cat _ _ _ _ p1 _ h1 h2 =>
    cases h1 with
    | @repCls _ _ _ _ _ n hlo hhi hrun =>
      obtain ⟨hlen, hall⟩ := extractSub_digits s i n hrun
      obtain ⟨hj, hdot⟩ := matches_lit_decomp h2
      have h3 : n ≤ 3 := hhi 3 rfl
      refine ⟨extractSub s i (i + n), ?_, ?_, ?_⟩
      · rw [extractSub_append s i (i + n) j (Nat.le_add_right _ _) (by omega), hdot]
      · simp only [digits13, hlen, hall, Bool.and_true]
        simp [hlo, h3]
      · omega

/-- tryEnds fails only if the continuation fails at every candidate. -/
theorem tryEnds_exhaust (counts : List Nat) (i : Nat) (k : Nat → Option Nat)
    (h : tryEnds counts i k = none) : ∀ n ∈ counts, k (i + n) = none := by
  induction counts with
  | nil =>
    intro n hn
    simp at hn
  | cons n0 rest ih =>
    rw [tryEnds] at h
    cases hk : k (i + n0) with
    | some r =>
      simp only [hk] at h
      exact Option.noConfusion h
    | none =>
      simp only [hk] at h
      intro n hn
      rcases List.mem_cons.mp hn with rfl | hn
      · exact hk
      · exact ih h n hn

/-- Converse membership in the greedy candidate list. -/
theorem mem_descCounts_of (lo m n : Nat) (h1 : lo ≤ n) (h2 : n ≤ m) :
    n ∈ descCounts lo m := by
  simp only [descCounts, List.mem_map, List.mem_range]
  exact ⟨m - n, by omega, by omega⟩

/-- Exhaustiveness of the backtracking matcher: on failure, no declarative
    match of the regex can make the continuation succeed. -/
theorem matchFrom_exhaust (re : RE) :
    ∀ (s : Str) (i : Nat) (k : Nat → Option Nat),
      matchFrom re s i k = none → ∀ j, Matches re s i j → k j = none := by
  induction re with
  | cls p =>
    intro s i k h j hm
    cases hm with
    | cls hg hp =>
      rw [matchFrom] at h
      simp only [hg] at h
      rw [if_pos hp] at h
      exact h
  | lit t =>
    intro s i k h j hm
    cases hm with
    | lit ht =>
      rw [matchFrom] at h
      rw [if_pos ht] at h
      exact h
  | cat a b iha ihb =>
    intro s i k h j hm
    cases hm with
    | cat h1 h2 =>
      rw [matchFrom] at h
      exact ihb _ _ _ (iha _ _ _ h _ h1) _ h2
  | alt a b iha ihb =>
    intro s i k h j hm
    rw [matchFrom] at h
    cases hma : matchFrom a s i k with
    | some r =>
      simp only [hma] at h
      exact Option.noConfusion h
    | none =>
      simp only [hma] at h
      cases hm with
      | altL h1 => exact iha _ _ _ hma _ h1
      | altR h2 => exact ihb _ _ _ h _ h2
  | repCls p lo hi =>
    intro s i k h j hm
    cases hm with
    | @repCls _ _ _ _ _ n hlo hhi hrun =>
      rw [matchFrom] at h
      refine tryEnds_exhaust _ _ _ h n (mem_descCounts_of _ _ _ hlo ?_)
      cases hi with
      | none => simpa using hrun
      | some hb =>
        simp only [Option.getD_some]
        exact le_min (hhi hb rfl) hrun
  | wb =>
    intro s i k h j hm
    cases hm with
    | wb hb =>
      rw [matchFrom] at h
      rw [if_pos hb] at h
      exact h

/-- The p-run starting at i fits inside the string. -/
theorem clsRun_le_sub (p : Char → Bool) (s : Str) (i : Nat) :
    clsRun p s i ≤ s.length - i := by
  rw [clsRun, ← List.length_drop i s]
  exact (List.takeWhile_sublist p).length_le

/-- Length of a slice whose right end lies inside the string. -/
theorem extractSub_length (s : Str) (i j : Nat) (hj : j ≤ s.length) :
    (extractSub s i j).length = j - i := by
  rw [extractSub, List.length_take, List.length_drop]
  exact min_eq_left (by omega)

/-- Converse of take_all_of_le_takeWhile: n all-p characters at the front
    bound the maximal run from below. -/
theorem le_takeWhile_of_take (p : Char → Bool) :
    ∀ (l : List Char) (n : Nat), (l.take n).length = n →
      (l.take n).all p = true → n ≤ (l.takeWhile p).length := by
  intro l
  induction l with
  | nil =>
    intro n hlen _
    simp only [List.take_nil, List.length_nil] at hlen
    omega
  | cons c t ih =>
    intro n hlen hall
    cases n with
    | zero => exact Nat.zero_le _
    | succ n =>
      rw [List.take_succ_cons] at hlen hall
      simp only [List.length_cons, Nat.succ.injEq] at hlen
      simp only [List.all_cons, Bool.and_eq_true] at hall
      rw [List.takeWhile_cons, if_pos hall.1]
      simp only [List.length_cons]
      exact Nat.succ_le_succ (ih n hlen hall.2)

/-- Split a slice equation at the length of the left part. -/
theorem extractSub_split (s : Str) (i j : Nat) (u v : Str) (hij : i ≤ j)
    (hj : j ≤ s.length) (h : extractSub s i j = u ++ v) :
    extractSub s i (i + u.length) = u ∧
    extractSub s (i + u.length) j = v ∧ i + u.length ≤ j := by
  have hlen : u.length + v.length = j - i := by
    have h2 := extractSub_length s i j hj
    rw [h, List.length_append] at h2
    exact h2
  have hmid : i + u.length ≤ j := by omega
  have happ := extractSub_append s i (i + u.length) j (Nat.le_add_right _ _) hmid
  have heq : extractSub s i (i + u.length) ++ extractSub s (i + u.length) j =
      u ++ v := by
    rw [← happ, h]
  have hlu : (extractSub s i (i + u.length)).length = u.length := by
    rw [extractSub_length s i (i + u.length) (by omega)]
    omega
  obtain ⟨h1, h2⟩ := List.append_inj heq hlu
  exact ⟨h1, h2, hmid⟩

/-- Unpack the Boolean digit-group predicate. -/
theorem digits13_spec (g : Str) (h : digits13 g = true) :
    1 ≤ g.length ∧ g.length ≤ 3 ∧ g.all isPyDigit = true := by
  simp only [digits13, Bool.and_eq_true, decide_eq_true_eq] at h
  exact ⟨h.1.1, h.1.2, h.2⟩

/-- Forward direction: a declarative ipRE match is a claim-side occurrence
    (shape plus word boundaries at both ends, inside the string). -/
theorem ipOccursAt_of_matches {s : Str} {i j : Nat} (h : Matches ipRE s i j) :
    ipOccursAt s i j := by
  cases h with
  | cat hwb hrest =>
    cases hwb with
    | wb hbi =>
      cases hrest with
      | @cat _ _ _ _ p1 _ h1 hrest2 =>
        obtain ⟨g1, e1, d1, le1⟩ := octetDot_decomp h1
        cases hrest2 with
        | @cat _ _ _ _ p2 _ h2 hrest3 =>
          obtain ⟨g2, e2, d2, le2⟩ := octetDot_decomp h2
          cases hrest3 with
          | @cat _ _ _ _ p3 _ h3 hrest4 =>
            obtain ⟨g3, e3, d3, le3⟩ := octetDot_decomp h3
            cases hrest4 with
            | @cat _ _ _ _ p4 _ h4 hwb2 =>
              cases h4 with
              | @repCls _ _ _ _ _ n hlo hhi hrun =>
                cases hwb2 with
                | wb hbj =>
                  obtain ⟨hlen, hall⟩ := extractSub_digits s p3 n hrun
                  have h3n : n ≤ 3 := hhi 3 rfl
                  have hcl := clsRun_le_sub isPyDigit s p3
                  have hjle : p3 + n ≤ s.length := by omega
                  refine ⟨hjle, hbi, hbj, g1, g2, g3,
                    extractSub s p3 (p3 + n), ?_, d1, d2, d3, ?_⟩
                  · rw [extractSub_append s i p1 (p3 + n) le1 (by omega),
                      extractSub_append s p1 p2 (p3 + n) le2 (by omega),
                      extractSub_append s p2 p3 (p3 + n) le3 (Nat.le_add_right _ _),
                      e1, e2, e3]
                    simp
                  · simp only [digits13, hlen, hall, Bool.and_true]
                    simp [hlo, h3n]

/-- Forward direction: a declarative errRE match is a claim-side occurrence. -/
theorem errOccursAt_of_matches {s : Str} {i j : Nat} (h : Matches errRE s i j) :
    errOccursAt s i j := by
  cases h with
  | cat hwb hrest =>
    cases hwb with
    | wb hbi =>
      cases hrest with
      | @cat _ _ _ _ pe _ halt hwb2 =>
        cases hwb2 with
        | wb hbj =>
          cases halt with
          | altL hE =>
            cases hE with
            | @cat _ _ _ _ p1 _ hlit hrep =>
              obtain ⟨hp1, he1⟩ := matches_lit_decomp hlit
              cases hrep with
              | @repCls _ _ _ _ _ n hlo hhi hrun =>
                obtain ⟨hlen, hall⟩ := extractSub_digits s p1 n hrun
                have h4n : n ≤ 4 := hhi 4 rfl
                have hcl := clsRun_le_sub isPyDigit s p1
                have hjle : p1 + n ≤ s.length := by omega
                refine ⟨hjle, hbi, hbj, Or.inl ⟨extractSub s p1 (p1 + n), ?_, hall, ?_⟩⟩
                · rw [extractSub_append s i p1 (p1 + n) (by omega)
                      (Nat.le_add_right _ _), he1]
                  simp
                · omega
          | altR hR =>
            cases hR with
            | @cat _ _ _ _ p1 _ hlit hrep =>
              obtain ⟨hp1, he1⟩ := matches_lit_decomp hlit
              cases hrep with
              | @repCls _ _ _ _ _ n hlo hhi hrun =>
                obtain ⟨hlen, hall⟩ := extractSub_digits s p1 n hrun
                have hcl := clsRun_le_sub isPyDigit s p1
                have hjle : p1 + n ≤ s.length := by omega
                refine ⟨hjle, hbi, hbj, Or.inr ⟨extractSub s p1 (p1 + n), ?_, hall, ?_⟩⟩
                · rw [extractSub_append s i p1 (p1 + n) (by omega)
                      (Nat.le_add_right _ _), he1]
                  simp
                · omega

/-- Backward direction: a claim-side IP occurrence is declaratively matched
    by ipRE. -/
theorem matches_of_ipOccursAt {s : Str} {i j : Nat} (h : ipOccursAt s i j) :
    Matches ipRE s i j := by
  obtain ⟨hj, hbi, hbj, g1, g2, g3, g4, hG, d1, d2, d3, d4⟩ := h
  obtain ⟨ha1, hb1, hc1⟩ := digits13_spec g1 d1
  obtain ⟨ha2, hb2, hc2⟩ := digits13_spec g2 d2
  obtain ⟨ha3, hb3, hc3⟩ := digits13_spec g3 d3
  obtain ⟨ha4, hb4, hc4⟩ := digits13_spec g4 d4
  have hG2 : extractSub s i j =
      g1 ++ ('.' :: (g2 ++ ('.' :: (g3 ++ ('.' :: g4))))) := by
    simpa [List.append_assoc] using hG
  have hlenG := extractSub_length s i j hj
  have hij : i ≤ j := by
    by_contra hcon
    rw [hG2] at hlenG
    simp only [List.length_append, List.length_cons] at hlenG
    omega
  rw [hG2] at hlenG
  simp only [List.length_append, List.length_cons] at hlenG
  obtain ⟨e1, r1, m1⟩ := extractSub_split s i j g1 _ hij hj hG2
  obtain ⟨e2, r2, m2⟩ :=
    extractSub_split s (i + g1.length) j ['.'] (g2 ++ ('.' :: (g3 ++ ('.' :: g4)))) m1 hj r1
  have r2a : extractSub s (i + g1.length + 1) j = g2 ++ ('.' :: (g3 ++ ('.' :: g4))) := r2
  have m2a : i + g1.length + 1 ≤ j := m2
  obtain ⟨e3, r3, m3⟩ := extractSub_split s (i + g1.length + 1) j g2 _ m2a hj r2a
  obtain ⟨e4, r4, m4⟩ :=
    extractSub_split s (i + g1.length + 1 + g2.length) j ['.'] (g3 ++ ('.' :: g4)) m3 hj r3
  have r4a : extractSub s (i + g1.length + 1 + g2.length + 1) j = g3 ++ ('.' :: g4) := r4
  have m4a : i + g1.length + 1 + g2.length + 1 ≤ j := m4
  obtain ⟨e5, r5, m5⟩ :=
    extractSub_split s (i + g1.length + 1 + g2.length + 1) j g3 _ m4a hj r4a
  obtain ⟨e6, r6, m6⟩ :=
    extractSub_split s (i + g1.length + 1 + g2.length + 1 + g3.length) j ['.'] g4 m5 hj r5
  have r6a : extractSub s (i + g1.length + 1 + g2.length + 1 + g3.length + 1) j = g4 := r6
  have hend : i + g1.length + 1 + g2.length + 1 + g3.length + 1 + g4.length = j := by
    omega
  have hrep : ∀ (q : Nat) (g : Str), extractSub s q (q + g.length) = g →
      g.all isPyDigit = true → 1 ≤ g.length → g.length ≤ 3 →
      Matches (.repCls isPyDigit 1 (some 3)) s q (q + g.length) := by
    intro q g he hall hg1 hg3
    have he2 : (s.drop q).take g.length = g := by
      simpa [extractSub] using he
    refine Matches.repCls hg1 (fun h3 hh => ?_) ?_
    · cases hh
      exact hg3
    · rw [clsRun]
      exact le_takeWhile_of_take isPyDigit _ _ (by rw [he2]) (by rw [he2]; exact hall)
  have hlitdot : ∀ (q : Nat), extractSub s q (q + 1) = ['.'] →
      Matches (.lit ['.']) s q (q + 1) := by
    intro q he
    have he2 : (s.drop q).take 1 = ['.'] := by
      simpa [extractSub] using he
    exact Matches.lit he2
  have hm1 : Matches octetDot s i (i + g1.length + 1) :=
    Matches.cat (hrep i g1 e1 hc1 ha1 hb1) (hlitdot (i + g1.length) e2)
  have hm2 : Matches octetDot s (i + g1.length + 1)
      (i + g1.length + 1 + g2.length + 1) :=
    Matches.cat (hrep (i + g1.length + 1) g2 e3 hc2 ha2 hb2)
      (hlitdot (i + g1.length + 1 + g2.length) e4)
  have hm3 : Matches octetDot s (i + g1.length + 1 + g2.length + 1)
      (i + g1.length + 1 + g2.length + 1 + g3.length + 1) :=
    Matches.cat (hrep (i + g1.length + 1 + g2.length + 1) g3 e5 hc3 ha3 hb3)
      (hlitdot (i + g1.length + 1 + g2.length + 1 + g3.length) e6)
  have e7 : extractSub s (i + g1.length + 1 + g2.length + 1 + g3.length + 1)
      (i + g1.length + 1 + g2.length + 1 + g3.length + 1 + g4.length) = g4 := by
    rw [hend]
    exact r6a
  have hm4 : Matches (.repCls isPyDigit 1 (some 3)) s
      (i + g1.length + 1 + g2.length + 1 + g3.length + 1)
      (i + g1.length + 1 + g2.length + 1 + g3.length + 1 + g4.length) :=
    hrep _ g4 e7 hc4 ha4 hb4
  have hbj2 : atWb s
      (i + g1.length + 1 + g2.length + 1 + g3.length + 1 + g4.length) = true := by
    rw [hend]
    exact hbj
  have : Matches ipRE s i
      (i + g1.length + 1 + g2.length + 1 + g3.length + 1 + g4.length) :=
    Matches.cat (Matches.wb hbi)
      (Matches.cat hm1 (Matches.cat hm2 (Matches.cat hm3
        (Matches.cat hm4 (Matches.wb hbj2)))))
  rw [← hend]
  exact this

/-- Backward direction: a claim-side error-code occurrence is declaratively
    matched by errRE. -/
theorem matches_of_errOccursAt {s : Str} {i j : Nat} (h : errOccursAt s i j) :
    Matches errRE s i j := by
  obtain ⟨hj, hbi, hbj, hcase⟩ := h
  cases hcase with
  | inl hE =>
    obtain ⟨g, hG, hall, hlen34⟩ := hE
    have hlenG := extractSub_length s i j hj
    have hij : i ≤ j := by
      by_contra hcon
      rw [hG] at hlenG
      simp only [List.length_cons] at hlenG
      omega
    rw [hG] at hlenG
    simp only [List.length_cons] at hlenG
    obtain ⟨e1, r1, m1⟩ := extractSub_split s i j ['E'] g hij hj hG
    have r1a : extractSub s (i + 1) j = g := r1
    have hend : i + 1 + g.length = j := by omega
    have e2 : extractSub s (i + 1) (i + 1 + g.length) = g := by
      rw [hend]
      exact r1a
    have e2t : (s.drop (i + 1)).take g.length = g := by
      simpa [extractSub] using e2
    have hlit : Matches (.lit ['E']) s i (i + 1) :=
      Matches.lit (by simpa [extractSub] using e1)
    have hrep : Matches (.repCls isPyDigit 3 (some 4)) s (i + 1) (i + 1 + g.length) := by
      refine Matches.repCls (by omega) (fun h3 hh => ?_) ?_
      · cases hh
        omega
      · rw [clsRun]
        exact le_takeWhile_of_take isPyDigit _ _ (by rw [e2t]) (by rw [e2t]; exact hall)
    have hbj2 : atWb s (i + 1 + g.length) = true := by
      rw [hend]
      exact hbj
    have : Matches errRE s i (i + 1 + g.length) :=
      Matches.cat (Matches.wb hbi)
        (Matches.cat (Matches.altL (Matches.cat hlit hrep)) (Matches.wb hbj2))
    rw [← hend]
    exact this
  | inr hR =>
    obtain ⟨g, hG, hall, hg1⟩ := hR
    have hlenG := extractSub_length s i j hj
    have hij : i ≤ j := by
      by_contra hcon
      rw [hG] at hlenG
      simp only [List.length_cons] at hlenG
      omega
    rw [hG] at hlenG
    simp only [List.length_cons] at hlenG
    obtain ⟨e1, r1, m1⟩ := extractSub_split s i j ['E', 'R', 'R', '_'] g hij hj hG
    have r1a : extractSub s (i + 4) j = g := r1
    have hend : i + 4 + g.length = j := by omega
    have e2 : extractSub s (i + 4) (i + 4 + g.length) = g := by
      rw [hend]
      exact r1a
    have e2t : (s.drop (i + 4)).take g.length = g := by
      simpa [extractSub] using e2
    have hlit : Matches (.lit ['E', 'R', 'R', '_']) s i (i + 4) :=
      Matches.lit (by simpa [extractSub] using e1)
    have hrep : Matches (.repCls isPyDigit 1 none) s (i + 4) (i + 4 + g.length) := by
      refine Matches.repCls hg1 (fun h3 hh => Option.noConfusion hh) ?_
      rw [clsRun]
      exact le_takeWhile_of_take isPyDigit _ _ (by rw [e2t]) (by rw [e2t]; exact hall)
    have hbj2 : atWb s (i + 4 + g.length) = true := by
      rw [hend]
      exact hbj
    have : Matches errRE s i (i + 4 + g.length) :=
      Matches.cat (Matches.wb hbi)
        (Matches.cat (Matches.altR (Matches.cat hlit hrep)) (Matches.wb hbj2))
    rw [← hend]
    exact this

/-- C5 as stated is false: "1.2.3.4" is an IPv4-shaped substring of
    "a1.2.3.4", but extract_ip_addresses returns nothing there because the
    pattern requires a word boundary before the first digit and 'a' is a
    word character. -/
theorem c5_counterexample :
    ipv4Shaped "1.2.3.4".toList = true ∧
    strContains "a1.2.3.4".toList "1.2.3.4".toList = true ∧
    extract_ip_addresses "a1.2.3.4".toList = [] := by
  decide

/-- Structure of the findall scan: the output is the list of slices of a
    list of position pairs that are declarative matches, pairwise
    non-overlapping in left-to-right order, and every declarative match
    starting at or after the scan position overlaps one of them, so none is
    skipped. -/
theorem findallAux_chars (re : RE) (s : Str)
    (Hpos : ∀ i j, Matches re s i j → i < j)
    (Hstart : ∀ i j, Matches re s i j → i < s.length) :
    ∀ (fuel i : Nat), s.length < i + fuel →
      ∃ ps : List (Nat × Nat),
        findallAux re s i fuel = ps.map (fun q => extractSub s q.1 q.2) ∧
        (∀ q ∈ ps, Matches re s q.1 q.2 ∧ i ≤ q.1) ∧
        ps.Pairwise (fun q1 q2 => q1.2 ≤ q2.1) ∧
        (∀ i0 j0, i ≤ i0 → Matches re s i0 j0 → ∃ q ∈ ps, q.1 ≤ i0 ∧ i0 < q.2) := by
  intro fuel
  induction fuel with
  | zero =>
    intro i hinv
    refine ⟨[], rfl, by simp, by simp, ?_⟩
    intro i0 j0 hi0 hm
    exact absurd (Hstart i0 j0 hm) (by omega)
  | succ fuel ih =>
    intro i hinv
    by_cases hle : i ≤ s.length
    · cases hm : matchFrom re s i some with
      | some j =>
        obtain ⟨j2, hmat, hsome⟩ := matchFrom_sound re s i some j hm
        have hj : j2 = j := Option.some.inj hsome
        subst hj
        have hij : i < j2 := Hpos i j2 hmat
        obtain ⟨ps, hmap, hsound, hpw, hcompl⟩ := ih j2 (by omega)
        refine ⟨(i, j2) :: ps, ?_, ?_, ?_, ?_⟩
        · rw [findallAux, if_pos hle]
          simp only [hm]
          rw [if_pos hij, hmap]
          rfl
        · intro q hq
          rcases List.mem_cons.mp hq with rfl | hq
          · exact ⟨hmat, Nat.le_refl _⟩
          · refine ⟨(hsound q hq).1, ?_⟩
            have := (hsound q hq).2
            omega
        · refine List.Pairwise.cons ?_ hpw
          intro q hq
          exact (hsound q hq).2
        · intro i0 j0 hi0 hm0
          by_cases hlt : i0 < j2
          · exact ⟨(i, j2), List.mem_cons_self _ _, hi0, hlt⟩
          · obtain ⟨q, hq, hcov⟩ := hcompl i0 j0 (by omega) hm0
            exact ⟨q, List.mem_cons_of_mem _ hq, hcov⟩
      | none =>
        have hnone : ∀ j0, Matches re s i j0 → False := by
          intro j0 hm0
          have h2 := matchFrom_exhaust re s i some hm j0 hm0
          exact Option.noConfusion h2
        obtain ⟨ps, hmap, hsound, hpw, hcompl⟩ := ih (i + 1) (by omega)
        refine ⟨ps, ?_, ?_, hpw, ?_⟩
        · rw [findallAux, if_pos hle]
          simp only [hm]
          exact hmap
        · intro q hq
          refine ⟨(hsound q hq).1, ?_⟩
          have := (hsound q hq).2
          omega
        · intro i0 j0 hi0 hm0
          rcases Nat.eq_or_lt_of_le hi0 with rfl | hlt
          · exact absurd hm0 (hnone j0)
          · exact hcompl i0 j0 (by omega) hm0
    · refine ⟨[], ?_, by simp, by simp, ?_⟩
      · rw [findallAux, if_neg hle]
        rfl
      · intro i0 j0 hi0 hm0
        exact absurd (Hstart i0 j0 hm0) (by omega)

/-- C5 (amended): each scan returns exactly the slices of a left-to-right,
    pairwise non-overlapping sequence of claim-side occurrences of its
    pattern in the message — IPv4-shaped (four dot-separated 1-3 digit
    groups, no range validation) respectively error-code-shaped (E plus 3-4
    digits, or ERR_ plus one or more digits, case-sensitive) slices whose
    two ends lie at word boundaries — in order of first appearance, and
    every such occurrence in the message overlaps a returned match, so none
    is skipped and no boundary-violating candidate is ever returned; on the
    end-to-end scenario message the scans yield ["192.168.1.1"] and
    ["ERR_503"], the malformed "999.999.999.999" is matched, and "a1.2.3.4"
    yields nothing. -/
theorem c5_extraction_scans (s : Str) :
    (∃ ps : List (Nat × Nat),
      extract_ip_addresses s = ps.map (fun q => extractSub s q.1 q.2) ∧
      (∀ q ∈ ps, ipOccursAt s q.1 q.2) ∧
      ps.Pairwise (fun q1 q2 => q1.2 ≤ q2.1) ∧
      (∀ i j, ipOccursAt s i j → ∃ q ∈ ps, q.1 ≤ i ∧ i < q.2)) ∧
    (∃ ps : List (Nat × Nat),
      extract_error_codes s = ps.map (fun q => extractSub s q.1 q.2) ∧
      (∀ q ∈ ps, errOccursAt s q.1 q.2) ∧
      ps.Pairwise (fun q1 q2 => q1.2 ≤ q2.1) ∧
      (∀ i j, errOccursAt s i j → ∃ q ∈ ps, q.1 ≤ i ∧ i < q.2)) ∧
    extract_ip_addresses
        "Connection timeout (IP: 192.168.1.1, Error Code: ERR_503).".toList =
      ["192.168.1.1".toList] ∧
    extract_error_codes
        "Connection timeout (IP: 192.168.1.1, Error Code: ERR_503).".toList =
      ["ERR_503".toList] ∧
    extract_ip_addresses "999.999.999.999".toList = ["999.999.999.999".toList] ∧
    extract_ip_addresses "a1.2.3.4".toList = [] := by
  have hipw : ∀ i j, Matches ipRE s i j → i < j ∧ j ≤ s.length := by
    intro i j hm
    obtain ⟨hj, _, _, g1, g2, g3, g4, hG, d1, _, _, _⟩ := ipOccursAt_of_matches hm
    obtain ⟨ha1, _, _⟩ := digits13_spec g1 d1
    have h0 := extractSub_length s i j hj
    rw [hG] at h0
    simp only [List.length_append, List.length_cons] at h0
    exact ⟨by omega, hj⟩
  have herrw : ∀ i j, Matches errRE s i j → i < j ∧ j ≤ s.length := by
    intro i j hm
    obtain ⟨hj, _, _, hcase⟩ := errOccursAt_of_matches hm
    have h0 := extractSub_length s i j hj
    refine ⟨?_, hj⟩
    cases hcase with
    | inl hE =>
      obtain ⟨g, hG, _, _⟩ := hE
      rw [hG] at h0
      simp only [List.length_cons] at h0
      omega
    | inr hR =>
      obtain ⟨g, hG, _, _⟩ := hR
      rw [hG] at h0
      simp only [List.length_cons] at h0
      omega
  obtain ⟨ps1, hmap1, hsound1, hpw1, hcompl1⟩ :=
    findallAux_chars ipRE s (fun i j hm => (hipw i j hm).1)
      (fun i j hm => by have := hipw i j hm; omega) (s.length + 1) 0 (by omega)
  obtain ⟨ps2, hmap2, hsound2, hpw2, hcompl2⟩ :=
    findallAux_chars errRE s (fun i j hm => (herrw i j hm).1)
      (fun i j hm => by have := herrw i j hm; omega) (s.length + 1) 0 (by omega)
  have hmap1a : extract_ip_addresses s = ps1.map (fun q => extractSub s q.1 q.2) :=
    hmap1
  have hmap2a : extract_error_codes s = ps2.map (fun q => extractSub s q.1 q.2) :=
    hmap2
  refine ⟨⟨ps1, hmap1a, ?_, hpw1, ?_⟩, ⟨ps2, hmap2a, ?_, hpw2, ?_⟩,
    by decide, by decide, by decide, by decide⟩
  · intro q hq
    exact ipOccursAt_of_matches (hsound1 q hq).1
  · intro i j hocc
    exact hcompl1 i j (Nat.zero_le _) (matches_of_ipOccursAt hocc)
  · intro q hq
    exact errOccursAt_of_matches (hsound2 q hq).1
  · intro i j hocc
    exact hcompl2 i j (Nat.zero_le _) (matches_of_errOccursAt hocc)

theorem c5_witness :
    extract_ip_addresses
        "Connection timeout (IP: 192.168.1.1, Error Code: ERR_503).".toList =
      ["192.168.1.1".toList] :=
  (c5_extraction_scans
    "Connection timeout (IP: 192.168.1.1, Error Code: ERR_503).".toList).2.2.1

end LogRCA
